import Mathlib

/-!
Verification development for the redco example scripts
(`examples/faderated_learning/main.py`, `examples/classification_regression/glue_main.py`,
`examples/reinforcement_learning/ppo_main.py`,
`examples/reinforcement_learning/maddpg_demo_main.py`).

The scripts are orchestration glue over an external deployer/trainer library.
We shallowly embed the repository-defined computations: the federated
averaging arithmetic of `FedAvgServer.run`, the client-index selection,
the GLUE `collate_fn`, the optimizer assembly of `glue_main.main`, and the
PPO / MADDPG episode driver loops.  External calls (the trainer, the
tokenizer, the gym environment, the agent policy) are parameters of the
embedding: the theorems quantify over their outcomes.
-/

/- ===================== Federated learning (main.py) ===================== -/

/-- Leafwise representation of a JAX parameter pytree: the list of its leaf
scalars in a fixed traversal order.  `jax.tree_util.tree_map` over trees of
identical structure acts leafwise, i.e. as `List.map` / `List.zipWith` on
this representation.  Leaves are modelled as rationals. -/
abbrev PTree := List ℚ

/-- Embeds `jax.tree_util.tree_map(jnp.zeros_like, self._params)` from
`FedAvgServer.run`. -/
def tree_zeros_like (t : PTree) : PTree := t.map (fun _ => 0)

/-- Embeds `jax.tree_util.tree_map(lambda x, y: x + y, sum_client_params,
client_params)` from `FedAvgServer.run`. -/
def tree_map_add (x y : PTree) : PTree := List.zipWith (fun a b => a + b) x y

/-- Embeds `jax.tree_util.tree_map(lambda x: x / n_clients_per_round,
sum_client_params)` from `FedAvgServer.run`. -/
def tree_map_div (t : PTree) (n : ℚ) : PTree := t.map (fun x => x / n)

/-- Embeds the client loop of one round of `FedAvgServer.run`:
`for client_idx in round_client_idxes: client_params = self.train_client(...);
sum_client_params = tree_map(lambda x, y: x + y, sum_client_params, client_params)`.
The external trainer behind `train_client` is abstracted by the function
`trainClient` mapping a client index to the parameter tree it returns. -/
def sumClientParams (trainClient : ℕ → PTree) : List ℕ → PTree → PTree
  | [], acc => acc
  | i :: rest, acc => sumClientParams trainClient rest (tree_map_add acc (trainClient i))

/-- Embeds the per-round update of the server parameters in
`FedAvgServer.run`: `self._params = tree_map(lambda x: x / n_clients_per_round,
sum_client_params)` where `sum_client_params` starts from
`tree_map(jnp.zeros_like, self._params)` and accumulates the client results. -/
def fedAvgRoundParams (params : PTree) (trainClient : ℕ → PTree)
    (roundClientIdxes : List ℕ) (nClientsPerRound : ℕ) : PTree :=
  tree_map_div (sumClientParams trainClient roundClientIdxes (tree_zeros_like params))
    (nClientsPerRound : ℚ)

/-- Models `np.random.choice` draws: one natural number per recursion depth,
reduced modulo the current pool size. -/
def drawNoReplace (rng : ℕ → ℕ) : ℕ → List ℕ → List ℕ
  | 0, _ => []
  | k + 1, pool =>
    let i := rng k % pool.length
    pool.getD i 0 :: drawNoReplace rng k (pool.eraseIdx i)

/-- Embeds `np.random.choice(np.arange(self._n_clients), n_clients_per_round,
replace=False)` from `FedAvgServer.run`.  Sampling without replacement from
`np.arange(n)` is defined by numpy only when the sample size is at most `n`;
otherwise numpy raises `ValueError`, modelled as `none`.  The random state is
abstracted by `rng`. -/
def np_random_choice_no_replace (n k : ℕ) (rng : ℕ → ℕ) : Option (List ℕ) :=
  if k ≤ n then some (drawNoReplace rng k (List.range n)) else none

/- ============ Reinforcement learning (ppo_main.py, maddpg_demo_main.py) ============ -/

/-- Embeds the tuple returned by `env.step(action)` in `ppo_main.main`:
`next_state, reward, terminated, truncated, info` (the unused `info` is
dropped).  Rewards are modelled as rationals. -/
structure StepResult (S : Type) where
  next_state : S
  reward : ℚ
  terminated : Bool
  truncated : Bool

/-- Embeds the `Transition` record built by the PPO driver loop:
`Transition(state=state, action=action, next_state=next_state, reward=reward,
done=int(terminated))`. -/
structure Transition (S A : Type) where
  state : S
  action : A
  next_state : S
  reward : ℚ
  done : ℕ

/-- Events performed by the episode body of `ppo_main.main`: an `env.step`
call (with the state and action it was given and the result it returned), an
`agent.update(transitions=...)` call, and an `agent.train(n_epochs=...)`
call. -/
inductive PPOEvent (S A : Type) where
  | envStep (state : S) (action : A) (result : StepResult S)
  | agentUpdate (transitions : List (Transition S A))
  | agentTrain (nEpochs : ℕ)

/-- Builds the transition recorded by `ppo_main.main` for one step:
`done` stores `int(terminated)`. -/
def mkTransition {S A : Type} (state : S) (action : A) (res : StepResult S) :
    Transition S A :=
  ⟨state, action, res.next_state, res.reward, if res.terminated then 1 else 0⟩

/-- Recovers the transition recorded for an env-step event; `none` on the
`agent.update` / `agent.train` events, which record no transition. -/
def transitionOfEvent {S A : Type} : PPOEvent S A → Option (Transition S A)
  | .envStep s a r => some (mkTransition s a r)
  | _ => none

/-- Tests whether an event is an `env.step` call. -/
def isEnvStep {S A : Type} : PPOEvent S A → Bool
  | .envStep _ _ _ => true
  | _ => false

/-- Tests whether an env-step event ended the episode
(`terminated or truncated`). -/
def stepEnded {S A : Type} : PPOEvent S A → Bool
  | .envStep _ _ r => r.terminated || r.truncated
  | _ => false

/-- Tests whether an event is an `agent.update` call. -/
def isAgentUpdate {S A : Type} : PPOEvent S A → Bool
  | .agentUpdate _ => true
  | _ => false

/-- Tests whether an event is an `agent.train` call. -/
def isAgentTrain {S A : Type} : PPOEvent S A → Bool
  | .agentTrain _ => true
  | _ => false

/-- Accumulated state of the `while True` loop of one episode of
`ppo_main.main`: the running `sum_rewards`, the `transitions` list, and the
trace of events performed so far. -/
structure EpisodeAcc (S A : Type) where
  sum_rewards : ℚ
  transitions : List (Transition S A)
  events : List (PPOEvent S A)

/-- Embeds the `while True` loop of one episode of `ppo_main.main`.  The
environment is abstracted by `env` mapping the current state and action to
the realized `env.step` outcome, and `agent.predict_action` by `policy`.
`fuel` bounds the number of iterations; `none` means the loop did not reach
`terminated or truncated` within `fuel` steps. -/
def episodeLoop {S A : Type} (env : S → A → StepResult S) (policy : S → A) :
    ℕ → S → ℚ → List (Transition S A) → List (PPOEvent S A) → Option (EpisodeAcc S A)
  | 0, _, _, _, _ => none
  | fuel + 1, state, sr, ts, evs =>
    let action := policy state
    let res := env state action
    let sr2 := sr + res.reward
    let ts2 := ts ++ [mkTransition state action res]
    let evs2 := evs ++ [PPOEvent.envStep state action res]
    if res.terminated || res.truncated then some ⟨sr2, ts2, evs2⟩
    else episodeLoop env policy fuel res.next_state sr2 ts2 evs2

/-- Embeds one full episode of `ppo_main.main`: the step loop starting from
`sum_rewards = 0.` and `transitions = []`, followed (on the
`terminated or truncated` branch) by `agent.update(transitions=transitions)`
and `agent.train(n_epochs=10)`.  The returned record carries the recorded
episode reward, the transitions handed to `agent.update`, and the full event
trace of the episode. -/
def runPPOEpisode {S A : Type} (env : S → A → StepResult S) (policy : S → A)
    (fuel : ℕ) (s0 : S) : Option (EpisodeAcc S A) :=
  match episodeLoop env policy fuel s0 0 [] [] with
  | none => none
  | some acc => some ⟨acc.sum_rewards, acc.transitions,
      acc.events ++ [PPOEvent.agentUpdate acc.transitions, PPOEvent.agentTrain 10]⟩

/-- Embeds the `while env.agents` loop of one episode of
`maddpg_demo_main.main`.  The parallel PettingZoo environment is abstracted
by `alive` (whether `env.agents` is non-empty in the current environment
state) and `menvStep` (the realized `env.step` outcome: next state and the
per-agent reward dict); `maddpg.predict_action(agent, state[agent], 0.)` is
abstracted by `policy`.  The loop threads the per-agent `sum_rewards` dict,
starting from `{agent: 0. for agent in env.agents}`, and the list of reward
dicts returned by `env.step`.  `fuel` bounds the number of iterations. -/
def maddpgEpisodeLoop {Agent MS Act : Type} (alive : MS → Bool)
    (menvStep : MS → (Agent → Act) → MS × (Agent → ℚ)) (policy : Agent → MS → Act) :
    ℕ → MS → (Agent → ℚ) → List (Agent → ℚ) → Option ((Agent → ℚ) × List (Agent → ℚ))
  | 0, _, _, _ => none
  | fuel + 1, st, sums, log =>
    if alive st then
      let acts := fun ag => policy ag st
      let step := menvStep st acts
      maddpgEpisodeLoop alive menvStep policy fuel step.1
        (fun ag => sums ag + step.2 ag) (log ++ [step.2])
    else some (sums, log)

/- ============ Classification / regression (glue_main.py) ============ -/

/-- Embeds a dataset example of `glue_main.py`: a Python dict from string
keys to values.  The value type `V` is abstract and covers sentences and
labels alike. -/
def GlueExample (V : Type) := String → V

/-- Embeds the `texts` list built by the loop of `collate_fn` in
`glue_main.py`: for each example in input order, `example[sent0_key]` alone
when `sent1_key is None`, and the pair
`(example[sent0_key], example[sent1_key])` otherwise. -/
def collateTexts {V : Type} (sent0Key : String) (sent1Key : Option String)
    (examples : List (GlueExample V)) : List (V ⊕ V × V) :=
  examples.map (fun ex =>
    match sent1Key with
    | none => Sum.inl (ex sent0Key)
    | some k1 => Sum.inr (ex sent0Key, ex k1))

/-- Embeds the batch returned by `collate_fn` of `glue_main.py`: the
tokenizer output for the texts together with the `labels` entry added
afterwards.  The tokenizer output type `T` is abstract. -/
structure GlueBatch (V T : Type) where
  tokenized : T
  labels : List V

/-- Embeds `collate_fn` of `glue_main.py`.  The Hugging Face tokenizer call
(`max_length`, padding, truncation, numpy tensors) is abstracted by
`tokenizer`; the entry
`batch['labels'] = np.array([example[label_key] for example in examples])`
is the list of the examples' label values in input order. -/
def glue_collate_fn {V T : Type} (examples : List (GlueExample V))
    (sent0Key : String) (sent1Key : Option String) (labelKey : String)
    (tokenizer : List (V ⊕ V × V) → T) : GlueBatch V T :=
  { tokenized := tokenizer (collateTexts sent0Key sent1Key examples),
    labels := examples.map (fun ex => ex labelKey) }

/-- Embeds the optax optimizer value assembled in `glue_main.main`.  The
learning-rate schedule is abstracted as a function from step to rate. -/
inductive Optimizer where
  | adamw (lrScheduleFn : ℕ → ℚ) (weightDecay : ℚ)
  | multiSteps (inner : Optimizer) (everyKSchedule : ℕ)

/-- Embeds the optimizer assembly of `glue_main.main`:
`optimizer = optax.adamw(learning_rate=lr_schedule_fn, weight_decay=weight_decay)`,
then `optimizer = optax.MultiSteps(optimizer, every_k_schedule=accumulate_grad_batches)`
exactly under `if accumulate_grad_batches > 1`. -/
def glueOptimizer (lrScheduleFn : ℕ → ℚ) (weightDecay : ℚ)
    (accumulateGradBatches : ℕ) : Optimizer :=
  if accumulateGradBatches > 1 then
    Optimizer.multiSteps (Optimizer.adamw lrScheduleFn weightDecay) accumulateGradBatches
  else Optimizer.adamw lrScheduleFn weightDecay

/-- External calls made by `glue_main.main`, in program order (the calls
relevant to training-loop delegation). -/
inductive GlueCall where
  | deployerInit
  | loadDatasetCall
  | loadTokenizer
  | loadModel
  | getLrScheduleFn
  | getShardingRules
  | mkTrainer (optimizer : Optimizer)
  | getDefaultPredictor
  | trainerFit

/-- Tests for the `trainer.fit` call. -/
def isTrainerFit : GlueCall → Bool
  | .trainerFit => true
  | _ => false

/-- Embeds the call sequence of `glue_main.main`: `Deployer(...)`,
`load_dataset`, `AutoTokenizer.from_pretrained`,
`FlaxAutoModelForSequenceClassification.from_pretrained`,
`deployer.get_lr_schedule_fn`, the optimizer assembly,
`deployer.get_sharding_rules`, `Trainer(...)` receiving the assembled
optimizer, `trainer.get_default_predictor`, and a single
`trainer.fit(...)` call carrying the whole training loop. -/
def glueMainCalls (lrScheduleFn : ℕ → ℚ) (weightDecay : ℚ)
    (accumulateGradBatches : ℕ) : List GlueCall :=
  [GlueCall.deployerInit, GlueCall.loadDatasetCall, GlueCall.loadTokenizer,
   GlueCall.loadModel, GlueCall.getLrScheduleFn, GlueCall.getShardingRules,
   GlueCall.mkTrainer (glueOptimizer lrScheduleFn weightDecay accumulateGradBatches),
   GlueCall.getDefaultPredictor, GlueCall.trainerFit]

/- ============ Error propagation and sequential orchestration ============ -/

/-- Embeds the failure-propagation structure of `glue_main.main`: every
fallible operation is an external call (dataset/model/tokenizer loading, the
trainer), the repository code contains no `try`/`except` and no `raise`, so
it sequences the calls and any exception propagates unchanged.  Each external
stage is abstracted by its `Except` outcome over the external error type
`E`; a later stage runs only when every earlier stage succeeded. -/
def glueMainExc {E Dataset Tok Model R : Type}
    (loadDataset : Except E Dataset)
    (loadTokenizer : Except E Tok)
    (loadModel : Except E Model)
    (fit : Dataset → Tok → Model → Except E R) : Except E R := do
  let dataset ← loadDataset
  let tokenizer ← loadTokenizer
  let model ← loadModel
  fit dataset tokenizer model

/-- Embeds the failure propagation of the client loop of `FedAvgServer.run`:
a `train_client` call may raise inside the external trainer; the loop catches
nothing, so a failure aborts the round and propagates unchanged. -/
def sumClientParamsExc {E : Type} (trainClient : ℕ → Except E PTree) :
    List ℕ → PTree → Except E PTree
  | [], acc => Except.ok acc
  | i :: rest, acc =>
    match trainClient i with
    | Except.error e => Except.error e
    | Except.ok p => sumClientParamsExc trainClient rest (tree_map_add acc p)

/-- Events of one round of `FedAvgServer.run`, in program order. -/
inductive FedRoundEvent where
  | clientTrainStart (clientIdx : ℕ)
  | clientTrainDone (clientIdx : ℕ)
  | paramsAveraged
  | evalRun

/-- Embeds the sequential orchestration of one round of `FedAvgServer.run`:
the body is a plain Python `for` loop (no thread or process is created
anywhere in the scripts), so for each selected client, in selection order,
`train_client` starts and completes before the next client's training
starts; afterwards the parameters are averaged and the evaluation runs. -/
def fedRoundTrace (roundClientIdxes : List ℕ) : List FedRoundEvent :=
  (roundClientIdxes.map (fun i =>
    [FedRoundEvent.clientTrainStart i, FedRoundEvent.clientTrainDone i])).flatten
  ++ [FedRoundEvent.paramsAveraged, FedRoundEvent.evalRun]

/- ===================== Theorems: federated learning ===================== -/

lemma tree_map_add_length (x y : PTree) :
    (tree_map_add x y).length = min x.length y.length := by
  simp [tree_map_add, List.length_zipWith]

lemma tree_map_add_getD (x y : PTree) (j : ℕ) (hx : j < x.length) (hy : j < y.length) :
    (tree_map_add x y).getD j 0 = x.getD j 0 + y.getD j 0 := by
  have hxy : j < (tree_map_add x y).length := by
    rw [tree_map_add_length]; exact lt_min hx hy
  rw [List.getD_eq_getElem _ _ hxy, List.getD_eq_getElem _ _ hx, List.getD_eq_getElem _ _ hy]
  simp [tree_map_add]

lemma sumClientParams_length (trainClient : ℕ → PTree) (idxes : List ℕ) (acc : PTree)
    (L : ℕ) (hacc : acc.length = L) (hcl : ∀ i ∈ idxes, (trainClient i).length = L) :
    (sumClientParams trainClient idxes acc).length = L := by
  induction idxes generalizing acc with
  | nil => simpa [sumClientParams] using hacc
  | cons i rest ih =>
    have hi : (trainClient i).length = L := hcl i (List.mem_cons_self i rest)
    have hrest : ∀ j ∈ rest, (trainClient j).length = L :=
      fun j hj => hcl j (List.mem_cons_of_mem i hj)
    have : (tree_map_add acc (trainClient i)).length = L := by
      rw [tree_map_add_length, hacc, hi, min_self]
    simpa [sumClientParams] using ih (tree_map_add acc (trainClient i)) this hrest

lemma sumClientParams_getD (trainClient : ℕ → PTree) (idxes : List ℕ) (acc : PTree)
    (L : ℕ) (hacc : acc.length = L) (hcl : ∀ i ∈ idxes, (trainClient i).length = L)
    (j : ℕ) (hj : j < L) :
    (sumClientParams trainClient idxes acc).getD j 0 =
      acc.getD j 0 + (idxes.map (fun i => (trainClient i).getD j 0)).sum := by
  induction idxes generalizing acc with
  | nil => simp [sumClientParams]
  | cons i rest ih =>
    have hi : (trainClient i).length = L := hcl i (List.mem_cons_self i rest)
    have hrest : ∀ m ∈ rest, (trainClient m).length = L :=
      fun m hm => hcl m (List.mem_cons_of_mem i hm)
    have hlen : (tree_map_add acc (trainClient i)).length = L := by
      rw [tree_map_add_length, hacc, hi, min_self]
    have step := ih (tree_map_add acc (trainClient i)) hlen hrest
    have hadd : (tree_map_add acc (trainClient i)).getD j 0 =
        acc.getD j 0 + (trainClient i).getD j 0 :=
      tree_map_add_getD acc (trainClient i) j (hacc ▸ hj) (hi ▸ hj)
    simp only [sumClientParams, step, hadd, List.map_cons, List.sum_cons]
    ring

lemma fedAvgRoundParams_length (params : PTree) (trainClient : ℕ → PTree)
    (idxes : List ℕ) (n : ℕ)
    (hlen : ∀ i ∈ idxes, (trainClient i).length = params.length) :
    (fedAvgRoundParams params trainClient idxes n).length = params.length := by
  have hz : (tree_zeros_like params).length = params.length := by
    simp [tree_zeros_like]
  have hsumlen : (sumClientParams trainClient idxes (tree_zeros_like params)).length
      = params.length := sumClientParams_length trainClient idxes _ _ hz hlen
  simp [fedAvgRoundParams, tree_map_div, hsumlen]

lemma fedAvgRoundParams_getD (params : PTree) (trainClient : ℕ → PTree)
    (idxes : List ℕ) (n : ℕ)
    (hlen : ∀ i ∈ idxes, (trainClient i).length = params.length)
    (j : ℕ) (hj : j < params.length) :
    (fedAvgRoundParams params trainClient idxes n).getD j 0 =
      (idxes.map (fun i => (trainClient i).getD j 0)).sum / (n : ℚ) := by
  have hz : (tree_zeros_like params).length = params.length := by
    simp [tree_zeros_like]
  have hsumlen : (sumClientParams trainClient idxes (tree_zeros_like params)).length
      = params.length := sumClientParams_length trainClient idxes _ _ hz hlen
  have hdivlen : j < (fedAvgRoundParams params trainClient idxes n).length := by
    rw [fedAvgRoundParams_length params trainClient idxes n hlen]; exact hj
  have hzero : (tree_zeros_like params).getD j 0 = 0 := by
    rw [List.getD_eq_getElem _ _ (by simpa [tree_zeros_like] using hj)]
    simp [tree_zeros_like]
  have hsum := sumClientParams_getD trainClient idxes (tree_zeros_like params)
    params.length hz hlen j hj
  rw [List.getD_eq_getElem _ _ hdivlen]
  simp only [fedAvgRoundParams, tree_map_div, List.getElem_map]
  rw [← List.getD_eq_getElem _ 0 (by simpa [fedAvgRoundParams, tree_map_div, hsumlen]
      using hj : j < (sumClientParams trainClient idxes (tree_zeros_like params)).length)]
  rw [hsum, hzero, zero_add]

/-- C1: after each round of `FedAvgServer.run`, the server parameter tree is
the elementwise arithmetic mean of the trees returned by `train_client` for
the selected clients: leafwise, the sum of the `n_clients_per_round` client
results divided by `n_clients_per_round`. -/
theorem fedavg_round_params_is_mean (params : PTree) (trainClient : ℕ → PTree)
    (idxes : List ℕ) (n : ℕ)
    (hlen : ∀ i ∈ idxes, (trainClient i).length = params.length)
    (hn : idxes.length = n) :
    idxes.length = n ∧
    (fedAvgRoundParams params trainClient idxes n).length = params.length ∧
    ∀ j, j < params.length →
      (fedAvgRoundParams params trainClient idxes n).getD j 0 =
        (idxes.map (fun i => (trainClient i).getD j 0)).sum / (n : ℚ) :=
  ⟨hn, fedAvgRoundParams_length params trainClient idxes n hlen,
   fun j hj => fedAvgRoundParams_getD params trainClient idxes n hlen j hj⟩

/-- Witness for C1 at a concrete input: two clients returning `[0, 1]` and
`[1, 1]` from server parameters `[1, 2]` average to first leaf `1/2`. -/
theorem fedavg_round_params_is_mean_witness :
    (fedAvgRoundParams [1, 2] (fun i => [(i : ℚ), 1]) [0, 1] 2).getD 0 0 = 1 / 2 := by
  have h := fedavg_round_params_is_mean [1, 2] (fun i => [(i : ℚ), 1]) [0, 1] 2
    (by intro i _; rfl) rfl
  rw [h.2.2 0 (by norm_num)]
  norm_num

/-- C2 counterexample: the repository code of `FedAvgServer.run` itself
rebinds the server parameter tree.  With one selected client whose trainer
returns `[2]`, the round rewrites the server parameters from `[0]` to `[2]`;
the rewrite (zeroing, summation, division, and the assignment to
`self._params`) is performed by the repository code, not inside the external
trainer call. -/
theorem fedavg_round_rebinds_params_counterexample :
    fedAvgRoundParams [0] (fun _ => [2]) [0] 1 ≠ [0] := by
  simp only [fedAvgRoundParams, sumClientParams, tree_zeros_like, tree_map_add,
    tree_map_div, List.map_cons, List.map_nil, List.zipWith_cons_cons,
    List.zipWith_nil_right]
  norm_num

/-- C2 amended: `FedAvgServer.run` does rebind the server parameter tree once
per round — to the elementwise average of the client-returned trees — and this
averaging assignment is the only repository-code rewrite of the parameters;
consequently the round is neutral exactly on the data returned by the external
trainer: if every selected client returns the server's current parameters, the
round leaves the server parameters unchanged. -/
theorem fedavg_round_fixed_point (params : PTree) (trainClient : ℕ → PTree)
    (idxes : List ℕ) (n : ℕ) (hn : idxes.length = n) (hpos : 0 < n)
    (hfix : ∀ i ∈ idxes, trainClient i = params) :
    fedAvgRoundParams params trainClient idxes n = params := by
  have hlen : ∀ i ∈ idxes, (trainClient i).length = params.length :=
    fun i hi => by rw [hfix i hi]
  have hL := fedAvgRoundParams_length params trainClient idxes n hlen
  apply List.ext_getElem hL
  intro j h1 h2
  have hj : j < params.length := h2
  have hG := fedAvgRoundParams_getD params trainClient idxes n hlen j hj
  rw [List.getD_eq_getElem _ _ h1] at hG
  rw [hG]
  have hmap : idxes.map (fun i => (trainClient i).getD j 0) =
      List.replicate idxes.length (params.getD j 0) := by
    rw [List.eq_replicate_iff]
    refine ⟨by simp, ?_⟩
    intro b hb
    obtain ⟨i, hi, hbi⟩ := List.mem_map.mp hb
    rw [← hbi, hfix i hi]
  rw [hmap, List.sum_replicate, hn, nsmul_eq_mul]
  rw [mul_div_cancel_left₀ _ (by exact_mod_cast hpos.ne' : (n : ℚ) ≠ 0)]
  exact List.getD_eq_getElem params 0 h2

/-- Witness for the amended C2: with two clients both returning the current
parameters `[5]`, the round leaves the server parameters at `[5]`. -/
theorem fedavg_round_fixed_point_witness :
    fedAvgRoundParams [5] (fun _ => [5]) [0, 1] 2 = [5] :=
  fedavg_round_fixed_point [5] (fun _ => [5]) [0, 1] 2 rfl (by norm_num)
    (fun i _ => rfl)

lemma drawNoReplace_spec (rng : ℕ → ℕ) :
    ∀ (k : ℕ) (pool : List ℕ), pool.Nodup → k ≤ pool.length →
      (drawNoReplace rng k pool).length = k ∧ (drawNoReplace rng k pool).Nodup ∧
      ∀ x ∈ drawNoReplace rng k pool, x ∈ pool := by
  intro k
  induction k with
  | zero => intro pool _ _; simp [drawNoReplace]
  | succ k ih =>
    intro pool hnd hk
    have hpos : 0 < pool.length := lt_of_lt_of_le (Nat.succ_pos k) hk
    have hi : rng k % pool.length < pool.length := Nat.mod_lt _ hpos
    have hhead : pool.getD (rng k % pool.length) 0 = pool[rng k % pool.length] :=
      List.getD_eq_getElem pool 0 hi
    have herase : pool.eraseIdx (rng k % pool.length)
        = pool.erase (pool[rng k % pool.length]) :=
      (hnd.erase_getElem (rng k % pool.length) hi).symm
    have hndrest : (pool.eraseIdx (rng k % pool.length)).Nodup := by
      rw [herase]; exact hnd.erase _
    have hlenrest : k ≤ (pool.eraseIdx (rng k % pool.length)).length := by
      rw [List.length_eraseIdx_of_lt hi]
      omega
    obtain ⟨h1, h2, h3⟩ := ih (pool.eraseIdx (rng k % pool.length)) hndrest hlenrest
    refine ⟨by simpa [drawNoReplace] using h1, ?_, ?_⟩
    · rw [drawNoReplace]
      refine List.nodup_cons.mpr ⟨?_, h2⟩
      intro hmem
      have hx : pool.getD (rng k % pool.length) 0
          ∈ pool.erase (pool[rng k % pool.length]) := by
        rw [← herase]; exact h3 _ hmem
      rw [hhead] at hx
      exact hnd.not_mem_erase hx
    · intro x hx
      rw [drawNoReplace] at hx
      rcases List.mem_cons.mp hx with hx | hx
      · rw [hx, hhead]; exact pool.getElem_mem hi
      · have := h3 x hx
        rw [herase] at this
        exact (pool.erase_sublist _).subset this

/-- C9: in each round of `FedAvgServer.run`, the selected client indices are
exactly `n_clients_per_round` pairwise-distinct values in `[0, n_clients)`;
the sampling `np.random.choice(..., replace=False)` is well defined exactly
under the precondition `n_clients_per_round <= n_clients` and fails (numpy
`ValueError`) otherwise. -/
theorem fedavg_client_selection_spec (n k : ℕ) (rng : ℕ → ℕ) :
    (k ≤ n → ∃ l, np_random_choice_no_replace n k rng = some l ∧
        l.length = k ∧ l.Nodup ∧ ∀ x ∈ l, x < n) ∧
    (n < k → np_random_choice_no_replace n k rng = none) := by
  constructor
  · intro hkn
    obtain ⟨h1, h2, h3⟩ := drawNoReplace_spec rng k (List.range n)
      (List.nodup_range n) (by simpa using hkn)
    exact ⟨drawNoReplace rng k (List.range n),
      by simp [np_random_choice_no_replace, hkn], h1, h2,
      fun x hx => List.mem_range.mp (h3 x hx)⟩
  · intro hnk
    simp [np_random_choice_no_replace, Nat.not_le.mpr hnk]

/-- Witness for C9: sampling 2 of 3 clients succeeds with 2 distinct indices
below 3; sampling 3 of 2 clients fails. -/
theorem fedavg_client_selection_spec_witness :
    (∃ l, np_random_choice_no_replace 3 2 (fun j => j) = some l ∧
        l.length = 2 ∧ l.Nodup ∧ ∀ x ∈ l, x < 3) ∧
    np_random_choice_no_replace 2 3 (fun j => j) = none :=
  ⟨(fedavg_client_selection_spec 3 2 (fun j => j)).1 (by norm_num),
   (fedavg_client_selection_spec 2 3 (fun j => j)).2 (by norm_num)⟩

/- ===================== Theorems: reinforcement learning ===================== -/

lemma episodeLoop_spec {S A : Type} (env : S → A → StepResult S) (policy : S → A) :
    ∀ (fuel : ℕ) (state : S) (sr : ℚ) (ts : List (Transition S A))
      (evs : List (PPOEvent S A)) (acc : EpisodeAcc S A),
      episodeLoop env policy fuel state sr ts evs = some acc →
      ∃ newEvs : List (PPOEvent S A),
        acc.events = evs ++ newEvs ∧
        (∀ e ∈ newEvs, isEnvStep e = true) ∧
        acc.transitions = ts ++ newEvs.filterMap transitionOfEvent ∧
        acc.sum_rewards =
          sr + ((newEvs.filterMap transitionOfEvent).map (fun t => t.reward)).sum ∧
        (∀ e ∈ newEvs.dropLast, stepEnded e = false) ∧
        ∃ ls la lr, newEvs.getLast? = some (PPOEvent.envStep ls la lr) ∧
          (lr.terminated || lr.truncated) = true ∧
          (newEvs.filterMap transitionOfEvent).getLast? = some (mkTransition ls la lr) := by
  intro fuel
  induction fuel with
  | zero => intro state sr ts evs acc h; simp [episodeLoop] at h
  | succ fuel ih =>
    intro state sr ts evs acc h
    simp only [episodeLoop] at h
    by_cases hcond : ((env state (policy state)).terminated
        || (env state (policy state)).truncated) = true
    · rw [if_pos hcond] at h
      have hacc := Option.some.inj h
      subst hacc
      refine ⟨[PPOEvent.envStep state (policy state) (env state (policy state))],
        rfl, ?_, ?_, ?_, ?_, ?_⟩
      · intro e he
        rw [List.mem_singleton.mp he]; rfl
      · simp [transitionOfEvent]
      · simp [transitionOfEvent, mkTransition]
      · intro e he; simp at he
      · exact ⟨state, policy state, env state (policy state), by simp, hcond, by
          simp [transitionOfEvent]⟩
    · rw [if_neg hcond] at h
      obtain ⟨newEvs2, hev, hstep, htr, hsum, hmid, ls, la, lr, hlast, hend, hfmlast⟩ :=
        ih (env state (policy state)).next_state
          (sr + (env state (policy state)).reward)
          (ts ++ [mkTransition state (policy state) (env state (policy state))])
          (evs ++ [PPOEvent.envStep state (policy state) (env state (policy state))])
          acc h
      cases newEvs2 with
      | nil => simp at hlast
      | cons y l2 =>
        refine ⟨PPOEvent.envStep state (policy state) (env state (policy state))
          :: y :: l2, ?_, ?_, ?_, ?_, ?_, ?_⟩
        · rw [hev]; simp
        · intro e he
          rcases List.mem_cons.mp he with he | he
          · rw [he]; rfl
          · exact hstep e he
        · rw [htr]
          simp [transitionOfEvent, List.filterMap_cons]
        · rw [hsum]
          simp only [List.filterMap_cons, transitionOfEvent, List.map_cons, List.sum_cons,
            mkTransition]
          ring
        · intro e he
          rw [List.dropLast_cons₂] at he
          rcases List.mem_cons.mp he with he | he
          · rw [he]
            simp only [stepEnded]
            exact Bool.not_eq_true _ ▸ (by simpa using hcond)
          · exact hmid e (by simpa [List.dropLast_cons₂] using he)
        · refine ⟨ls, la, lr, by simpa using hlast, hend, ?_⟩
          cases hfm : (y :: l2).filterMap (transitionOfEvent (S := S) (A := A)) with
          | nil => rw [hfm] at hfmlast; simp at hfmlast
          | cons z l3 =>
            rw [hfm] at hfmlast
            simp only [List.filterMap_cons, transitionOfEvent, hfm, List.getLast?_cons_cons]
            exact hfmlast

lemma maddpgEpisodeLoop_spec {Agent MS Act : Type} (alive : MS → Bool)
    (menvStep : MS → (Agent → Act) → MS × (Agent → ℚ)) (policy : Agent → MS → Act) :
    ∀ (fuel : ℕ) (st : MS) (sums : Agent → ℚ) (log : List (Agent → ℚ))
      (sums2 : Agent → ℚ) (log2 : List (Agent → ℚ)),
      maddpgEpisodeLoop alive menvStep policy fuel st sums log = some (sums2, log2) →
      ∃ newLog, log2 = log ++ newLog ∧
        ∀ ag, sums2 ag = sums ag + (newLog.map (fun r => r ag)).sum := by
  intro fuel
  induction fuel with
  | zero => intro st sums log sums2 log2 h; simp [maddpgEpisodeLoop] at h
  | succ fuel ih =>
    intro st sums log sums2 log2 h
    simp only [maddpgEpisodeLoop] at h
    by_cases halive : alive st = true
    · rw [if_pos halive] at h
      obtain ⟨newLog, hlog, hsum⟩ := ih _ _ _ _ _ h
      refine ⟨(menvStep st (fun ag => policy ag st)).2 :: newLog, ?_, ?_⟩
      · rw [hlog]; simp
      · intro ag
        rw [hsum ag]
        simp only [List.map_cons, List.sum_cons]
        ring
    · rw [if_neg halive] at h
      obtain ⟨h1, h2⟩ := Prod.mk.injEq .. |>.mp (Option.some.inj h)
      refine ⟨[], by rw [← h2]; simp, ?_⟩
      intro ag
      rw [← h1]
      simp

/-- C4: for every completed episode of the PPO driver loop and of the MADDPG
demo loop, the episode reward that is recorded and printed (`sum_rewards`)
equals the exact sum of the per-step rewards returned by `env.step` during
that episode; in the MADDPG case the rewards are summed separately for each
agent. -/
theorem episode_reward_is_sum_of_step_rewards :
    (∀ (S A : Type) (env : S → A → StepResult S) (policy : S → A) (fuel : ℕ) (s0 : S)
        (acc : EpisodeAcc S A), runPPOEpisode env policy fuel s0 = some acc →
        acc.sum_rewards =
          ((acc.events.filterMap transitionOfEvent).map (fun t => t.reward)).sum) ∧
    (∀ (Agent MS Act : Type) (alive : MS → Bool)
        (menvStep : MS → (Agent → Act) → MS × (Agent → ℚ)) (policy : Agent → MS → Act)
        (fuel : ℕ) (st : MS) (sums2 : Agent → ℚ) (log2 : List (Agent → ℚ)),
        maddpgEpisodeLoop alive menvStep policy fuel st (fun _ => 0) [] = some (sums2, log2) →
        ∀ ag, sums2 ag = (log2.map (fun r => r ag)).sum) := by
  constructor
  · intro S A env policy fuel s0 acc h
    rw [runPPOEpisode] at h
    cases heq : episodeLoop env policy fuel s0 0 [] [] with
    | none => rw [heq] at h; exact absurd h (by simp)
    | some acc0 =>
      rw [heq] at h
      have hacc := Option.some.inj h
      subst hacc
      obtain ⟨newEvs, hev, hstep, htr, hsum, hmid, ls, la, lr, hlast, hend, hfmlast⟩ :=
        episodeLoop_spec env policy fuel s0 0 [] [] acc0 heq
      have hev2 : acc0.events = newEvs := by simpa using hev
      have hsum2 : acc0.sum_rewards =
          ((newEvs.filterMap transitionOfEvent).map (fun t => t.reward)).sum := by
        simpa using hsum
      simp only [hev2, List.filterMap_append]
      simp [transitionOfEvent, hsum2]
  · intro Agent MS Act alive menvStep policy fuel st sums2 log2 h ag
    obtain ⟨newLog, hlog, hsum⟩ :=
      maddpgEpisodeLoop_spec alive menvStep policy fuel st (fun _ => 0) [] sums2 log2 h
    rw [hsum ag, hlog]
    simp

/-- Witness for C4 at concrete inputs: a PPO episode with a single step of
reward 3 records reward `0 + 3`, and a MADDPG episode with one step of
per-agent reward 2 records `0 + 2` for each agent. -/
theorem episode_reward_is_sum_witness :
    ((EpisodeAcc.mk (0 + 3) [Transition.mk 0 0 0 3 1]
        [PPOEvent.envStep 0 0 (StepResult.mk 0 3 true false),
         PPOEvent.agentUpdate [Transition.mk 0 0 0 3 1],
         PPOEvent.agentTrain 10] : EpisodeAcc ℕ ℕ).sum_rewards =
      ((([PPOEvent.envStep 0 0 (StepResult.mk 0 3 true false),
          PPOEvent.agentUpdate [Transition.mk 0 0 0 3 1],
          PPOEvent.agentTrain 10] : List (PPOEvent ℕ ℕ)).filterMap
            transitionOfEvent).map (fun t => t.reward)).sum) ∧
    ((fun _ => (0 : ℚ) + 2) (5 : ℕ) =
      (([fun _ => (2 : ℚ)] : List (ℕ → ℚ)).map (fun r => r (5 : ℕ))).sum) := by
  constructor
  · exact episode_reward_is_sum_of_step_rewards.1 ℕ ℕ
      (fun s _ => StepResult.mk s 3 true false) (fun _ => 0) 1 0
      (EpisodeAcc.mk (0 + 3) [Transition.mk 0 0 0 3 1]
        [PPOEvent.envStep 0 0 (StepResult.mk 0 3 true false),
         PPOEvent.agentUpdate [Transition.mk 0 0 0 3 1],
         PPOEvent.agentTrain 10]) rfl
  · exact episode_reward_is_sum_of_step_rewards.2 ℕ ℕ ℕ
      (fun st => st == 0) (fun st _ => (st + 1, fun _ => 2)) (fun _ _ => 0) 2 0
      (fun _ => 0 + 2) [fun _ => 2] rfl 5

/-- C5: in the PPO driver each episode steps the environment until it reports
`terminated or truncated` (no earlier event ends the episode, the last one
does), and then — exactly once per episode and in this order — `agent.update`
is called with the complete list of that episode's transitions, followed by
`agent.train` with `n_epochs = 10`; no `update` or `train` call occurs among
the in-episode steps. -/
theorem ppo_update_then_train_once_per_episode (S A : Type)
    (env : S → A → StepResult S) (policy : S → A) (fuel : ℕ) (s0 : S)
    (acc : EpisodeAcc S A) (h : runPPOEpisode env policy fuel s0 = some acc) :
    ∃ stepEvs : List (PPOEvent S A),
      acc.events = stepEvs ++
        [PPOEvent.agentUpdate acc.transitions, PPOEvent.agentTrain 10] ∧
      stepEvs ≠ [] ∧
      (∀ e ∈ stepEvs, isEnvStep e = true) ∧
      acc.transitions = stepEvs.filterMap transitionOfEvent ∧
      (∀ e ∈ stepEvs.dropLast, stepEnded e = false) ∧
      (∀ e, stepEvs.getLast? = some e → stepEnded e = true) ∧
      acc.events.countP isAgentUpdate = 1 ∧
      acc.events.countP isAgentTrain = 1 := by
  rw [runPPOEpisode] at h
  cases heq : episodeLoop env policy fuel s0 0 [] [] with
  | none => rw [heq] at h; exact absurd h (by simp)
  | some acc0 =>
    rw [heq] at h
    have hacc := Option.some.inj h
    subst hacc
    obtain ⟨newEvs, hev, hstep, htr, hsum, hmid, ls, la, lr, hlast, hend, hfmlast⟩ :=
      episodeLoop_spec env policy fuel s0 0 [] [] acc0 heq
    have hev2 : acc0.events = newEvs := by simpa using hev
    have htr2 : acc0.transitions = newEvs.filterMap transitionOfEvent := by simpa using htr
    have hne : newEvs ≠ [] := by
      intro hcontra
      rw [hcontra] at hlast
      simp at hlast
    have hnoupd : newEvs.countP isAgentUpdate = 0 := by
      rw [List.countP_eq_zero]
      intro e he
      cases e with
      | envStep s a r => simp [isAgentUpdate]
      | agentUpdate ts => exact absurd (hstep _ he) (by simp [isEnvStep])
      | agentTrain k => simp [isAgentUpdate]
    have hnotrain : newEvs.countP isAgentTrain = 0 := by
      rw [List.countP_eq_zero]
      intro e he
      cases e with
      | envStep s a r => simp [isAgentTrain]
      | agentUpdate ts => simp [isAgentTrain]
      | agentTrain k => exact absurd (hstep _ he) (by simp [isEnvStep])
    refine ⟨newEvs, by simp [hev2], hne, hstep, by simpa using htr, hmid, ?_, ?_, ?_⟩
    · intro e he
      rw [hlast] at he
      rw [← Option.some.inj he]
      simpa [stepEnded] using hend
    · simp [hev2, List.countP_append, hnoupd, List.countP_cons, isAgentUpdate]
    · simp [hev2, List.countP_append, hnotrain, List.countP_cons, isAgentTrain]

/-- Witness for C5: the one-step PPO episode with reward 3 has trace
`[env.step, agent.update(transitions), agent.train(10)]`. -/
theorem ppo_update_then_train_witness :
    ∃ stepEvs : List (PPOEvent ℕ ℕ),
      ([PPOEvent.envStep 0 0 (StepResult.mk 0 3 true false),
        PPOEvent.agentUpdate [Transition.mk 0 0 0 3 1],
        PPOEvent.agentTrain 10] : List (PPOEvent ℕ ℕ)) = stepEvs ++
          [PPOEvent.agentUpdate [Transition.mk 0 0 0 3 1], PPOEvent.agentTrain 10] ∧
      stepEvs ≠ [] ∧
      (∀ e ∈ stepEvs, isEnvStep e = true) ∧
      ([Transition.mk 0 0 0 3 1] : List (Transition ℕ ℕ))
        = stepEvs.filterMap transitionOfEvent ∧
      (∀ e ∈ stepEvs.dropLast, stepEnded e = false) ∧
      (∀ e, stepEvs.getLast? = some e → stepEnded e = true) ∧
      ([PPOEvent.envStep 0 0 (StepResult.mk 0 3 true false),
        PPOEvent.agentUpdate [Transition.mk 0 0 0 3 1],
        PPOEvent.agentTrain 10] : List (PPOEvent ℕ ℕ)).countP isAgentUpdate = 1 ∧
      ([PPOEvent.envStep 0 0 (StepResult.mk 0 3 true false),
        PPOEvent.agentUpdate [Transition.mk 0 0 0 3 1],
        PPOEvent.agentTrain 10] : List (PPOEvent ℕ ℕ)).countP isAgentTrain = 1 :=
  ppo_update_then_train_once_per_episode ℕ ℕ
    (fun s _ => StepResult.mk s 3 true false) (fun _ => 0) 1 0
    (EpisodeAcc.mk (0 + 3) [Transition.mk 0 0 0 3 1]
      [PPOEvent.envStep 0 0 (StepResult.mk 0 3 true false),
       PPOEvent.agentUpdate [Transition.mk 0 0 0 3 1],
       PPOEvent.agentTrain 10]) rfl

/-- C10: every transition recorded by the PPO driver stores
`done = int(terminated)` for its own `env.step` — 1 exactly when that step
reported `terminated` — and the final transition of an episode comes from a
step with `terminated or truncated`; when that last step was not terminated
(an episode ending by truncation alone), its `done` field is 0. -/
theorem ppo_transition_done_is_int_terminated (S A : Type)
    (env : S → A → StepResult S) (policy : S → A) (fuel : ℕ) (s0 : S)
    (acc : EpisodeAcc S A) (h : runPPOEpisode env policy fuel s0 = some acc) :
    (∀ t ∈ acc.transitions, ∃ s a r, PPOEvent.envStep s a r ∈ acc.events ∧
        t = mkTransition s a r ∧
        t.done = (if r.terminated then 1 else 0) ∧
        (t.done = 1 ↔ r.terminated = true)) ∧
    ∃ ls la lr, acc.transitions.getLast? = some (mkTransition ls la lr) ∧
      (lr.terminated || lr.truncated) = true ∧
      (lr.terminated = false → (mkTransition ls la lr).done = 0) := by
  rw [runPPOEpisode] at h
  cases heq : episodeLoop env policy fuel s0 0 [] [] with
  | none => rw [heq] at h; exact absurd h (by simp)
  | some acc0 =>
    rw [heq] at h
    have hacc := Option.some.inj h
    subst hacc
    obtain ⟨newEvs, hev, hstep, htr, hsum, hmid, ls, la, lr, hlast, hend, hfmlast⟩ :=
      episodeLoop_spec env policy fuel s0 0 [] [] acc0 heq
    have hev2 : acc0.events = newEvs := by simpa using hev
    have htr2 : acc0.transitions = newEvs.filterMap transitionOfEvent := by simpa using htr
    constructor
    · intro t ht
      simp only [htr2] at ht
      obtain ⟨e, he, hte⟩ := List.mem_filterMap.mp ht
      cases e with
      | envStep s a r =>
        refine ⟨s, a, r, ?_, ?_, ?_, ?_⟩
        · simp only [hev2]
          exact List.mem_append_left _ he
        · exact (Option.some.inj hte).symm
        · rw [← Option.some.inj hte]; rfl
        · rw [← Option.some.inj hte]
          simp only [mkTransition]
          cases hr : r.terminated with
          | true => simp
          | false => simp
      | agentUpdate ts => exact absurd (hstep _ he) (by simp [isEnvStep])
      | agentTrain k => exact absurd (hstep _ he) (by simp [isEnvStep])
    · refine ⟨ls, la, lr, ?_, hend, ?_⟩
      · simp only [htr2]
        exact hfmlast
      · intro hterm
        simp [mkTransition, hterm]

/-- Witness for C10: a one-step episode ending with `truncated = True` and
`terminated = False` records its final transition with `done = 0`. -/
theorem ppo_transition_done_witness :
    ∃ ls la lr, (([Transition.mk 0 0 0 3 0] : List (Transition ℕ ℕ)).getLast?
        = some (mkTransition ls la lr)) ∧
      (lr.terminated || lr.truncated) = true ∧
      (lr.terminated = false → (mkTransition ls la lr).done = 0) :=
  (ppo_transition_done_is_int_terminated ℕ ℕ
    (fun s _ => StepResult.mk s 3 false true) (fun _ => 0) 1 0
    (EpisodeAcc.mk (0 + 3) [Transition.mk 0 0 0 3 0]
      [PPOEvent.envStep 0 0 (StepResult.mk 0 3 false true),
       PPOEvent.agentUpdate [Transition.mk 0 0 0 3 0],
       PPOEvent.agentTrain 10]) rfl).2

/- ============ Theorems: glue_main, error propagation, sequencing ============ -/

/-- C3: for every non-empty list of examples, the batch returned by
`collate_fn` has a `labels` entry holding the examples' `label_key` values in
input order (one per example, same length as the input), and its tokenized
texts are built from `example[sent0_key]` alone when `sent1_key is None` and
from the pair `(example[sent0_key], example[sent1_key])` otherwise. -/
theorem glue_collate_fn_spec (V T : Type) (examples : List (GlueExample V))
    (sent0Key : String) (sent1Key : Option String) (labelKey : String)
    (tokenizer : List (V ⊕ V × V) → T) (hne : examples ≠ []) :
    (glue_collate_fn examples sent0Key sent1Key labelKey tokenizer).labels
        = examples.map (fun ex => ex labelKey) ∧
    (glue_collate_fn examples sent0Key sent1Key labelKey tokenizer).labels.length
        = examples.length ∧
    (sent1Key = none →
      (glue_collate_fn examples sent0Key sent1Key labelKey tokenizer).tokenized
        = tokenizer (examples.map (fun ex => Sum.inl (ex sent0Key)))) ∧
    (∀ k1, sent1Key = some k1 →
      (glue_collate_fn examples sent0Key sent1Key labelKey tokenizer).tokenized
        = tokenizer (examples.map (fun ex => Sum.inr (ex sent0Key, ex k1)))) := by
  refine ⟨rfl, by simp [glue_collate_fn], ?_, ?_⟩
  · intro hnone
    simp [glue_collate_fn, collateTexts, hnone]
  · intro k1 hsome
    simp [glue_collate_fn, collateTexts, hsome]

/-- Witness for C3: one single-sentence example whose dict maps every key to
itself; the labels list is `["label"]` and the tokenizer sees
`[Sum.inl "s0"]`. -/
theorem glue_collate_fn_witness :
    (glue_collate_fn [fun k => k] "s0" none "label" (fun l => l)).labels
        = ([fun k => k] : List (GlueExample String)).map (fun ex => ex "label") ∧
    (glue_collate_fn [fun k => k] "s0" none "label" (fun l => l)).labels.length
        = ([fun k => k] : List (GlueExample String)).length ∧
    ((none : Option String) = none →
      (glue_collate_fn [fun k => k] "s0" none "label" (fun l => l)).tokenized
        = ([fun k => k] : List (GlueExample String)).map
            (fun ex => Sum.inl (ex "s0"))) ∧
    (∀ k1, (none : Option String) = some k1 →
      (glue_collate_fn [fun k => k] "s0" none "label" (fun l => l)).tokenized
        = ([fun k => k] : List (GlueExample String)).map
            (fun ex => Sum.inr (ex "s0", ex k1))) :=
  glue_collate_fn_spec String (List (String ⊕ String × String)) [fun k => k]
    "s0" none "label" (fun l => l) (List.cons_ne_nil _ _)

/-- C6: the optimizer handed to the `Trainer` in `glue_main.main` is the
adamw optimizer wrapped in gradient accumulation
(`optax.MultiSteps(..., every_k_schedule=accumulate_grad_batches)`)
exactly when `accumulate_grad_batches > 1`, and the plain adamw optimizer
otherwise; the call sequence hands the assembled optimizer to the
constructed `Trainer` and delegates all training-loop, sharding and
gradient work through a single `trainer.fit` call. -/
theorem glue_optimizer_and_single_fit (lrScheduleFn : ℕ → ℚ) (weightDecay : ℚ)
    (accumulateGradBatches : ℕ) :
    (glueOptimizer lrScheduleFn weightDecay accumulateGradBatches
        = Optimizer.multiSteps (Optimizer.adamw lrScheduleFn weightDecay)
            accumulateGradBatches
      ↔ accumulateGradBatches > 1) ∧
    (glueOptimizer lrScheduleFn weightDecay accumulateGradBatches
        = Optimizer.adamw lrScheduleFn weightDecay
      ↔ ¬ accumulateGradBatches > 1) ∧
    GlueCall.mkTrainer (glueOptimizer lrScheduleFn weightDecay accumulateGradBatches)
      ∈ glueMainCalls lrScheduleFn weightDecay accumulateGradBatches ∧
    (glueMainCalls lrScheduleFn weightDecay accumulateGradBatches).countP
      isTrainerFit = 1 := by
  refine ⟨?_, ?_, ?_, ?_⟩
  · constructor
    · intro heq
      by_contra hle
      rw [glueOptimizer, if_neg hle] at heq
      exact Optimizer.noConfusion heq
    · intro hgt
      rw [glueOptimizer, if_pos hgt]
  · constructor
    · intro heq
      intro hgt
      rw [glueOptimizer, if_pos hgt] at heq
      exact Optimizer.noConfusion heq
    · intro hle
      rw [glueOptimizer, if_neg hle]
  · simp [glueMainCalls]
  · rfl

/-- C7: no operation defined in the repository raises a repository-defined
error or intercepts an exception: a failure in any external stage of
`glue_main.main` (dataset loading, tokenizer loading, model loading, the
trainer) propagates unchanged as the final outcome, and a failing
`train_client` call aborts the federated round with the same error.  The
error type `E` is owned entirely by the external libraries. -/
theorem errors_propagate_unchanged (E Dataset Tok Model R : Type)
    (ld : Except E Dataset) (lt : Except E Tok) (lm : Except E Model)
    (fit : Dataset → Tok → Model → Except E R) :
    (∀ e, ld = Except.error e → glueMainExc ld lt lm fit = Except.error e) ∧
    (∀ d e, ld = Except.ok d → lt = Except.error e →
      glueMainExc ld lt lm fit = Except.error e) ∧
    (∀ d tok e, ld = Except.ok d → lt = Except.ok tok → lm = Except.error e →
      glueMainExc ld lt lm fit = Except.error e) ∧
    (∀ d tok m e, ld = Except.ok d → lt = Except.ok tok → lm = Except.ok m →
      fit d tok m = Except.error e → glueMainExc ld lt lm fit = Except.error e) ∧
    (∀ (trainClient : ℕ → Except E PTree) (e : E) (i : ℕ) (rest : List ℕ)
        (acc : PTree), trainClient i = Except.error e →
      sumClientParamsExc trainClient (i :: rest) acc = Except.error e) := by
  refine ⟨?_, ?_, ?_, ?_, ?_⟩
  · intro e he
    subst he
    rfl
  · intro d e hd he
    subst hd
    subst he
    rfl
  · intro d tok e hd ht he
    subst hd
    subst ht
    subst he
    rfl
  · intro d tok m e hd ht hm he
    subst hd
    subst ht
    subst hm
    exact he
  · intro trainClient e i rest acc he
    rw [sumClientParamsExc, he]

/-- Witness for C7: a failing dataset load propagates its error through
`glue_main.main`, and a failing first client aborts the federated round with
the same error. -/
theorem errors_propagate_unchanged_witness :
    glueMainExc (Except.error "load failed" : Except String Unit) (Except.ok ())
        (Except.ok ()) (fun _ _ _ => (Except.ok () : Except String Unit))
      = Except.error "load failed" ∧
    sumClientParamsExc (fun _ => Except.error "client failed") [0, 1] [0]
        = (Except.error "client failed" : Except String PTree) :=
  ⟨(errors_propagate_unchanged String Unit Unit Unit Unit
      (Except.error "load failed" : Except String Unit) (Except.ok ()) (Except.ok ())
      (fun _ _ _ => Except.ok ())).1 "load failed" rfl,
   (errors_propagate_unchanged String Unit Unit Unit Unit
      (Except.error "load failed") (Except.ok ()) (Except.ok ())
      (fun _ _ _ => Except.ok ())).2.2.2.2
      (fun _ => Except.error "client failed") "client failed" 0 [1] [0] rfl⟩

/-- C8: the scripts are single-threaded sequential orchestration — no thread
or process is created — and within each federated round the selected clients
are trained strictly one after another in selection order: the trace of round
events places the training start of the k-th selected client at position 2k
and its completion at position 2k+1, before the next client begins. -/
theorem fedavg_clients_sequential (idxes : List ℕ) :
    (fedRoundTrace idxes).length = 2 * idxes.length + 2 ∧
    ∀ k, k < idxes.length →
      (fedRoundTrace idxes).getD (2 * k) FedRoundEvent.paramsAveraged
          = FedRoundEvent.clientTrainStart (idxes.getD k 0) ∧
      (fedRoundTrace idxes).getD (2 * k + 1) FedRoundEvent.paramsAveraged
          = FedRoundEvent.clientTrainDone (idxes.getD k 0) := by
  induction idxes with
  | nil =>
    refine ⟨by simp [fedRoundTrace], ?_⟩
    intro k hk
    exact absurd hk (by simp)
  | cons i rest ih =>
    have hcons : fedRoundTrace (i :: rest)
        = FedRoundEvent.clientTrainStart i :: FedRoundEvent.clientTrainDone i
          :: fedRoundTrace rest := by
      simp [fedRoundTrace]
    constructor
    · rw [hcons]
      simp only [List.length_cons, ih.1, List.length_cons]
      ring
    · intro k hk
      cases k with
      | zero => rw [hcons]; exact ⟨rfl, rfl⟩
      | succ k =>
        have hk2 : k < rest.length := by simpa using hk
        have hrest := ih.2 k hk2
        rw [hcons]
        have e1 : 2 * (k + 1) = 2 * k + 1 + 1 := by ring
        rw [e1]
        simp only [List.getD_cons_succ]
        simpa using hrest

/-- Witness for C8: with selected clients `[4, 7]`, client 7 (the second
selected) starts at trace position 2 and completes at position 3. -/
theorem fedavg_clients_sequential_witness :
    (fedRoundTrace [4, 7]).getD (2 * 1) FedRoundEvent.paramsAveraged
        = FedRoundEvent.clientTrainStart (([4, 7] : List ℕ).getD 1 0) ∧
    (fedRoundTrace [4, 7]).getD (2 * 1 + 1) FedRoundEvent.paramsAveraged
        = FedRoundEvent.clientTrainDone (([4, 7] : List ℕ).getD 1 0) :=
  (fedavg_clients_sequential [4, 7]).2 1 (by norm_num)
